import Mathlib

/-!
Shallow embedding of the document extraction and normalization pipeline
(`src/cleaner.py`, `src/parser.py` of the repository).  Text is modelled as
`List Char`; Python strings map to the list of their characters.  The two
external primitives (the SHA-256 digest from `hashlib` and the per-page raw
text supplied by the PDF library) are universally quantified parameters of
the embedded functions.
-/

/-- The character list of a string literal; Python strings are embedded as
    their character lists. -/
def S (s : String) : List Char := s.data

/-- The characters Python's `str.strip()` and the regex class `\s` treat as
    whitespace (ASCII range). -/
def isPySpace (c : Char) : Bool :=
  c = ' ' || c = '\t' || c = '\n' || c = '\r' || c = '\x0b' || c = '\x0c'

/-- Python `text.replace(pat, rep)` for a single-character pattern: every
    occurrence of `pat` is replaced by `rep`. -/
def replaceChar (pat : Char) (rep : List Char) (t : List Char) : List Char :=
  t.flatMap (fun c => if c = pat then rep else [c])

/-- `TextCleaner._fix_ligatures`: the seven table entries applied in the
    table's order (innermost application first). -/
def fix_ligatures (t : List Char) : List Char :=
  replaceChar 'ﬆ' ['s', 't'] <| replaceChar 'ﬅ' ['f', 't'] <| replaceChar 'ﬄ' ['f', 'f', 'l'] <|
    replaceChar 'ﬃ' ['f', 'f', 'i'] <| replaceChar 'ﬀ' ['f', 'f'] <| replaceChar 'ﬂ' ['f', 'l'] <|
      replaceChar 'ﬁ' ['f', 'i'] t

/-- Python `str.strip()`: drop leading and trailing whitespace. -/
def stripChars (l : List Char) : List Char :=
  ((l.dropWhile isPySpace).reverse.dropWhile isPySpace).reverse

/-- Python `text.split('\n')`. -/
def splitLines : List Char → List (List Char)
  | [] => [[]]
  | c :: cs =>
    if c = '\n' then [] :: splitLines cs
    else
      match splitLines cs with
      | [] => [[c]]
      | line :: rest => (c :: line) :: rest

/-- Python `'\n'.join(lines)`. -/
def joinLines : List (List Char) → List Char
  | [] => []
  | [l] => l
  | l :: ls => l ++ '\n' :: joinLines ls

/-- The part of the regex `^Page \d+ of \d+$` after the first digit run:
    a literal `" of "` followed by one or more digits reaching the end. -/
def pageTail (r : List Char) : Bool :=
  match r with
  | ' ' :: 'o' :: 'f' :: ' ' :: r3 => !r3.isEmpty && r3.all Char.isDigit
  | _ => false

/-- `re.match(r'^Page \d+ of \d+$', s, re.IGNORECASE)` on an
    already-stripped line. -/
def isPagePattern (s : List Char) : Bool :=
  match s.map Char.toLower with
  | 'p' :: 'a' :: 'g' :: 'e' :: ' ' :: rest =>
    !(rest.takeWhile Char.isDigit).isEmpty && pageTail (rest.dropWhile Char.isDigit)
  | _ => false

/-- `TextCleaner._remove_artifacts` keeps a line unless its stripped form is
    empty, consists only of digits, or matches the `Page X of Y` pattern. -/
def keepLine (line : List Char) : Bool :=
  let s := stripChars line
  !s.isEmpty && !s.all Char.isDigit && !isPagePattern s

/-- `TextCleaner._remove_artifacts`: split on newlines, drop artifact lines,
    rejoin the survivors with newlines. -/
def remove_artifacts (t : List Char) : List Char :=
  joinLines ((splitLines t).filter keepLine)

/-- `re.sub(r"-\n\s*", "", text)`: a hyphen immediately followed by a newline,
    together with the whitespace run after the newline, is deleted; scanning
    resumes after the consumed run. -/
def hyphenAux : Bool → List Char → List Char
  | _, [] => []
  | skip, [c] => if skip && isPySpace c then [] else [c]
  | skip, c :: d :: cs =>
    if skip && isPySpace c then hyphenAux true (d :: cs)
    else if c = '-' && d = '\n' then hyphenAux true cs
    else c :: hyphenAux false (d :: cs)

/-- Top-level entry of the hyphenation-repair substitution. -/
def fixHyphen (t : List Char) : List Char := hyphenAux false t

/-- `re.sub(r"\s+", " ", text)`: every maximal whitespace run becomes a single
    space. -/
def collapseWS : List Char → List Char
  | [] => []
  | [c] => if isPySpace c then [' '] else [c]
  | c :: d :: cs =>
    if isPySpace c then
      if isPySpace d then collapseWS (d :: cs)
      else ' ' :: collapseWS (d :: cs)
    else c :: collapseWS (d :: cs)

/-- `TextCleaner._normalize_whitespace`: hyphenation repair, whitespace
    collapsing, then `strip()`. -/
def normalize_whitespace (t : List Char) : List Char :=
  stripChars (collapseWS (fixHyphen t))

/-- `TextCleaner.clean_text`: empty input short-circuits; otherwise ligature
    repair, artifact removal and whitespace normalization in that order. -/
def clean_text (t : List Char) : List Char :=
  if t.isEmpty then []
  else normalize_whitespace (remove_artifacts (fix_ligatures t))

/-- The seven precomposed ligature glyphs of the table. -/
def isLig (c : Char) : Bool :=
  c = 'ﬁ' || c = 'ﬂ' || c = 'ﬀ' || c = 'ﬃ' || c = 'ﬄ' || c = 'ﬅ' || c = 'ﬆ'

/-- Two adjacent characters are not both whitespace. -/
def noTwoWS (a b : Char) : Prop := isPySpace a = false ∨ isPySpace b = false

/-- Whether `pat` occurs as a contiguous substring of `l`. -/
def containsSub (pat l : List Char) : Bool :=
  l.tails.any (fun t => pat.isPrefixOf t)

/-! ## Parser model (`src/parser.py`)

`fitz` supplies the pages of an opened PDF; a page is modelled by its raw
extracted text, a whole document by the list of its pages' texts.  The
SHA-256 primitive of `hashlib` is modelled by an arbitrary function
`digest` (bytes, respectively an encoded composite-key string, to a hex
string); every theorem quantifies over it. -/

/-- The metadata dictionary built for each page, with its five keys. -/
structure DocMetadata where
  filename : List Char
  file_path : List Char
  page_number : Nat
  file_hash : List Char
  id : List Char
deriving DecidableEq, Repr

/-- The `Document` dataclass: cleaned page content plus metadata. -/
structure Document where
  content : List Char
  metadata : DocMetadata
deriving DecidableEq, Repr

/-- The Document assembled in the loop body of `PDFParser.parse` for the page
    with 0-based index `pageNum` whose cleaned text is `cleaned`; its id is
    the digest of `file_hash + "_" + str(page_num)`. -/
def mkDoc (digest : List Char → List Char) (filename filePath fileHash : List Char)
    (pageNum : Nat) (cleaned : List Char) : Document :=
  { content := cleaned
    metadata :=
      { filename := filename
        file_path := filePath
        page_number := pageNum + 1
        file_hash := fileHash
        id := digest (fileHash ++ '_' :: Nat.toDigits 10 pageNum) } }

/-- The page loop of `PDFParser.parse` (`for page_num, page in enumerate(doc)`),
    starting at index `i`: pages whose text cleans to empty are skipped, every
    other page yields its Document. -/
def parsePagesAux (digest : List Char → List Char) (filename filePath fileHash : List Char) :
    Nat → List (List Char) → List Document
  | _, [] => []
  | i, raw :: rest =>
    if (clean_text raw).isEmpty then parsePagesAux digest filename filePath fileHash (i + 1) rest
    else
      mkDoc digest filename filePath fileHash i (clean_text raw) ::
        parsePagesAux digest filename filePath fileHash (i + 1) rest

/-- The full sequence of Documents yielded by `PDFParser.parse` once the file
    is opened. -/
def parsePages (digest : List Char → List Char) (filename filePath fileHash : List Char)
    (pages : List (List Char)) : List Document :=
  parsePagesAux digest filename filePath fileHash 0 pages

/-- A file on disk: a name (final path component), a path, and content bytes.
    Only the bytes feed the hash. -/
structure FileModel where
  name : List Char
  path : List Char
  bytes : List Nat
deriving DecidableEq, Repr

/-- The 4096-byte blocks `_calculate_file_hash` reads
    (`iter(lambda: f.read(4096), b"")`). -/
def chunkBytes (l : List Nat) : List (List Nat) :=
  if l = [] then [] else l.take 4096 :: chunkBytes (l.drop 4096)
termination_by l.length
decreasing_by
  simp only [List.length_drop]
  have : 0 < l.length := List.length_pos.mpr (by assumption)
  omega

/-- `PDFParser._calculate_file_hash`: the incremental SHA-256 over the chunk
    sequence equals the digest of the concatenation of the chunks. -/
def calculate_file_hash (digestBytes : List Nat → List Char) (f : FileModel) : List Char :=
  digestBytes (chunkBytes f.bytes).flatten

/-- The error taxonomy of `PDFParser.parse`. -/
inductive ParseError
  | notFound
  | unsupportedFormat
  | corruptDocument
deriving DecidableEq, Repr

/-- Whether a character differs from the extension separator. -/
def notDot (c : Char) : Bool := c != '.'

/-- `pathlib.PurePath.suffix`: the extension of the final component, empty
    when the only dot is leading or there is no dot (CPython: the suffix is
    `name[i:]` for `i = name.rfind('.')` when `0 < i < len(name) - 1`). -/
def pathSuffix (name : List Char) : List Char :=
  let r := name.reverse
  let j := (r.takeWhile notDot).length
  if 1 ≤ j ∧ j + 1 < r.length then (r.take (j + 1)).reverse else []

/-- Lines 49-53 of `PDFParser.parse`: the existence check runs first, the
    case-insensitive `.pdf` extension check second. -/
def checkPath (existsB : Bool) (name : List Char) : Option ParseError :=
  if existsB = false then some ParseError.notFound
  else if (pathSuffix name).map Char.toLower ≠ S ".pdf" then some ParseError.unsupportedFormat
  else none

/-! ## Generator trace model

`PDFParser.parse` is a Python generator: its body runs only as far as the
consumer pulls.  The events of one extraction are opening the document,
yielding a Document for page `i`, and the `doc.close()` after the loop.
`runPulls k tr` is the prefix of the straight-line trace `tr` a consumer
executes by calling `next` `k` times: each pull runs the body up to and
including the next yield (or to the end); abandoning the iterator executes
nothing further. -/

inductive PEvent
  | opened
  | yielded (i : Nat)
  | closed
deriving DecidableEq, Repr

/-- The yield events of the page loop, starting at index `i`. -/
def yieldEvents : Nat → List (List Char) → List PEvent
  | _, [] => []
  | i, raw :: rest =>
    if (clean_text raw).isEmpty then yieldEvents (i + 1) rest
    else PEvent.yielded i :: yieldEvents (i + 1) rest

/-- The straight-line event trace of a successfully opened extraction:
    open, one yield per retained page, then the final `doc.close()`. -/
def parseTrace (pages : List (List Char)) : List PEvent :=
  PEvent.opened :: (yieldEvents 0 pages ++ [PEvent.closed])

/-- The events actually executed after `k` calls to `next`. -/
def runPulls : Nat → List PEvent → List PEvent
  | 0, _ => []
  | _ + 1, [] => []
  | k + 1, PEvent.yielded i :: rest => PEvent.yielded i :: runPulls k rest
  | k + 1, e :: rest => e :: runPulls (k + 1) rest

/-- The events a consumer that pulls `k` times from `parse` executes. -/
def execAfterPulls (pages : List (List Char)) (k : Nat) : List PEvent :=
  runPulls k (parseTrace pages)

/-- The events of a whole `parse` call including the pre-open checks: when a
    check fails the error is raised before any handle is opened, so no event
    occurs at all. -/
def parseEvents (existsB : Bool) (name : List Char) (pages : List (List Char))
    (k : Nat) : List PEvent :=
  match checkPath existsB name with
  | some _ => []
  | none => execAfterPulls pages k


/-! ## Helper lemmas: ligature repair -/

theorem mem_replaceChar {c p : Char} {rep t : List Char} (h : c ∈ replaceChar p rep t) :
    c ∈ rep ∨ (c ∈ t ∧ c ≠ p) := by
  rcases List.mem_flatMap.mp h with ⟨a, ha, hc⟩
  by_cases hap : a = p
  · subst hap
    simp only [if_pos rfl] at hc
    exact Or.inl hc
  · simp only [if_neg hap, List.mem_singleton] at hc
    subst hc
    exact Or.inr ⟨ha, hap⟩

theorem replaceChar_eq_self {p : Char} {rep t : List Char} (h : p ∉ t) :
    replaceChar p rep t = t := by
  induction t with
  | nil => rfl
  | cons a t ih =>
    have hap : a ≠ p := fun he => h (he ▸ List.mem_cons_self a t)
    have ht : p ∉ t := fun hm => h (List.mem_cons_of_mem a hm)
    simp only [replaceChar, List.flatMap_cons, if_neg hap] at *
    rw [ih ht]
    rfl

theorem isLig_false_of_mem_fix_ligatures {c : Char} {t : List Char}
    (h : c ∈ fix_ligatures t) : isLig c = false := by
  unfold fix_ligatures at h
  rcases mem_replaceChar h with h | ⟨h, h7⟩
  · fin_cases h <;> rfl
  rcases mem_replaceChar h with h | ⟨h, h6⟩
  · fin_cases h <;> rfl
  rcases mem_replaceChar h with h | ⟨h, h5⟩
  · fin_cases h <;> rfl
  rcases mem_replaceChar h with h | ⟨h, h4⟩
  · fin_cases h <;> rfl
  rcases mem_replaceChar h with h | ⟨h, h3⟩
  · fin_cases h <;> rfl
  rcases mem_replaceChar h with h | ⟨h, h2⟩
  · fin_cases h <;> rfl
  rcases mem_replaceChar h with h | ⟨h, h1⟩
  · fin_cases h <;> rfl
  simp [isLig, h1, h2, h3, h4, h5, h6, h7]

theorem fix_ligatures_eq_self {t : List Char} (h : ∀ c ∈ t, isLig c = false) :
    fix_ligatures t = t := by
  have hn : ∀ p : Char, isLig p = true → p ∉ t := fun p hp hm => by
    rw [h p hm] at hp
    exact Bool.false_ne_true hp
  unfold fix_ligatures
  rw [replaceChar_eq_self (hn 'ﬁ' (by decide)), replaceChar_eq_self (hn 'ﬂ' (by decide)),
    replaceChar_eq_self (hn 'ﬀ' (by decide)), replaceChar_eq_self (hn 'ﬃ' (by decide)),
    replaceChar_eq_self (hn 'ﬄ' (by decide)), replaceChar_eq_self (hn 'ﬅ' (by decide)),
    replaceChar_eq_self (hn 'ﬆ' (by decide))]

/-! ## Helper lemmas: line splitting, joining, artifact removal -/

theorem splitLines_ne_nil (t : List Char) : splitLines t ≠ [] := by
  induction t with
  | nil => simp [splitLines]
  | cons c cs ih =>
    by_cases hc : c = '\n'
    · simp [splitLines, hc]
    · simp only [splitLines, if_neg hc]
      cases hsp : splitLines cs with
      | nil => simp
      | cons l rest => simp

theorem splitLines_cons_of_ne {c : Char} (cs : List Char) (hc : c ≠ '\n') :
    ∃ l rest, splitLines cs = l :: rest ∧ splitLines (c :: cs) = (c :: l) :: rest := by
  cases hsp : splitLines cs with
  | nil => exact absurd hsp (splitLines_ne_nil cs)
  | cons l rest => exact ⟨l, rest, rfl, by simp [splitLines, if_neg hc, hsp]⟩

theorem splitLines_of_no_newline {t : List Char} (h : '\n' ∉ t) : splitLines t = [t] := by
  induction t with
  | nil => rfl
  | cons c cs ih =>
    have hc : c ≠ '\n' := fun he => h (by rw [he]; exact List.mem_cons_self _ _)
    obtain ⟨l, rest, h1, h2⟩ := splitLines_cons_of_ne cs hc
    rw [ih (fun hm => h (List.mem_cons_of_mem _ hm))] at h1
    cases h1
    exact h2

theorem mem_of_mem_splitLines {x : Char} {line t : List Char}
    (hl : line ∈ splitLines t) (hx : x ∈ line) : x ∈ t := by
  induction t generalizing line with
  | nil =>
    simp only [splitLines, List.mem_singleton] at hl
    subst hl
    exact absurd hx (List.not_mem_nil x)
  | cons c cs ih =>
    by_cases hc : c = '\n'
    · simp only [splitLines, if_pos hc] at hl
      rcases List.mem_cons.mp hl with rfl | hl'
      · exact absurd hx (List.not_mem_nil x)
      · exact List.mem_cons_of_mem _ (ih hl' hx)
    · obtain ⟨l, rest, h1, h2⟩ := splitLines_cons_of_ne cs hc
      rw [h2] at hl
      rcases List.mem_cons.mp hl with rfl | hl'
      · rcases List.mem_cons.mp hx with rfl | hx'
        · exact List.mem_cons_self _ _
        · exact List.mem_cons_of_mem _
            (ih (by rw [h1]; exact List.mem_cons_self _ _) hx')
      · exact List.mem_cons_of_mem _
          (ih (by rw [h1]; exact List.mem_cons_of_mem _ hl') hx)

theorem mem_joinLines {x : Char} {ls : List (List Char)} (h : x ∈ joinLines ls) :
    x = '\n' ∨ ∃ l ∈ ls, x ∈ l := by
  induction ls with
  | nil => exact absurd h (List.not_mem_nil x)
  | cons l ls ih =>
    cases ls with
    | nil => exact Or.inr ⟨l, List.mem_cons_self _ _, h⟩
    | cons l2 ls2 =>
      rw [show joinLines (l :: l2 :: ls2) = l ++ '\n' :: joinLines (l2 :: ls2) from rfl] at h
      rcases List.mem_append.mp h with h | h
      · exact Or.inr ⟨l, List.mem_cons_self _ _, h⟩
      · rcases List.mem_cons.mp h with rfl | h
        · exact Or.inl rfl
        · rcases ih h with h | ⟨l', hl', hx⟩
          · exact Or.inl h
          · exact Or.inr ⟨l', List.mem_cons_of_mem _ hl', hx⟩

theorem remove_artifacts_of_no_newline {t : List Char} (h : '\n' ∉ t) :
    remove_artifacts t = t ∨ remove_artifacts t = [] := by
  unfold remove_artifacts
  rw [splitLines_of_no_newline h]
  by_cases hk : keepLine t
  · left
    rw [List.filter_cons, if_pos hk]
    rfl
  · right
    rw [List.filter_cons, if_neg hk]
    rfl

theorem mem_remove_artifacts {x : Char} {t : List Char} (h : x ∈ remove_artifacts t) :
    x = '\n' ∨ x ∈ t := by
  unfold remove_artifacts at h
  rcases mem_joinLines h with h | ⟨l, hl, hx⟩
  · exact Or.inl h
  · exact Or.inr (mem_of_mem_splitLines (List.mem_of_mem_filter hl) hx)

/-! ## Helper lemmas: whitespace normalization -/

theorem mem_hyphenAux {x : Char} {skip : Bool} {t : List Char}
    (h : x ∈ hyphenAux skip t) : x ∈ t := by
  induction skip, t using hyphenAux.induct with
  | case1 skip => exact absurd h (List.not_mem_nil x)
  | case2 skip c hcond =>
    rw [hyphenAux, if_pos hcond] at h
    exact absurd h (List.not_mem_nil x)
  | case3 skip c hcond =>
    rw [hyphenAux, if_neg hcond] at h
    exact h
  | case4 skip c d cs hcond ih =>
    rw [hyphenAux, if_pos hcond] at h
    exact List.mem_cons_of_mem c (ih h)
  | case5 skip c d cs hcond hpat ih =>
    rw [hyphenAux, if_neg hcond, if_pos hpat] at h
    exact List.mem_cons_of_mem c (List.mem_cons_of_mem d (ih h))
  | case6 skip c d cs hcond hpat ih =>
    rw [hyphenAux, if_neg hcond, if_neg hpat] at h
    rcases List.mem_cons.mp h with rfl | h'
    · exact List.mem_cons_self _ _
    · exact List.mem_cons_of_mem c (ih h')

theorem hyphenAux_of_no_newline {t : List Char} (h : '\n' ∉ t) :
    hyphenAux false t = t := by
  induction t with
  | nil => rfl
  | cons c cs ih =>
    cases cs with
    | nil => simp [hyphenAux]
    | cons d cs' =>
      have hd : d ≠ '\n' := fun he => h (by rw [he]; exact List.mem_cons_of_mem _ (List.mem_cons_self _ _))
      have ht : '\n' ∉ d :: cs' := fun hm => h (List.mem_cons_of_mem _ hm)
      have hpat : (c = '-' && d = '\n') = false := by simp [hd]
      have e1 : hyphenAux false (c :: d :: cs') =
          if false && isPySpace c then hyphenAux true (d :: cs')
          else if c = '-' && d = '\n' then hyphenAux true cs'
          else c :: hyphenAux false (d :: cs') := rfl
      rw [e1]
      simp only [Bool.false_and, Bool.false_eq_true, if_false, hpat]
      rw [ih ht]

theorem mem_collapseWS {x : Char} {t : List Char} (h : x ∈ collapseWS t) :
    x = ' ' ∨ x ∈ t := by
  induction t with
  | nil => exact absurd h (List.not_mem_nil x)
  | cons c cs ih =>
    cases cs with
    | nil =>
      simp only [collapseWS] at h
      split at h
      · exact Or.inl (List.mem_singleton.mp h)
      · exact Or.inr h
    | cons d cs' =>
      simp only [collapseWS] at h
      split at h
      · split at h
        · rcases ih h with h' | h'
          · exact Or.inl h'
          · exact Or.inr (List.mem_cons_of_mem c h')
        · rcases List.mem_cons.mp h with rfl | h'
          · exact Or.inl rfl
          · rcases ih h' with h'' | h''
            · exact Or.inl h''
            · exact Or.inr (List.mem_cons_of_mem c h'')
      · rcases List.mem_cons.mp h with rfl | h'
        · exact Or.inr (List.mem_cons_self _ _)
        · rcases ih h' with h'' | h''
          · exact Or.inl h''
          · exact Or.inr (List.mem_cons_of_mem c h'')

theorem collapseWS_space {x : Char} {t : List Char} (h : x ∈ collapseWS t)
    (hx : isPySpace x = true) : x = ' ' := by
  induction t with
  | nil => exact absurd h (List.not_mem_nil x)
  | cons c cs ih =>
    cases cs with
    | nil =>
      simp only [collapseWS] at h
      split at h
      · exact List.mem_singleton.mp h
      · rw [List.mem_singleton.mp h] at hx
        simp_all
    | cons d cs' =>
      simp only [collapseWS] at h
      split at h
      · split at h
        · exact ih h
        · rcases List.mem_cons.mp h with rfl | h'
          · rfl
          · exact ih h'
      · rcases List.mem_cons.mp h with rfl | h'
        · simp_all
        · exact ih h'

theorem collapseWS_cons_of_not_space {d : Char} {cs : List Char}
    (hd : isPySpace d = false) : collapseWS (d :: cs) = d :: collapseWS cs := by
  cases cs with
  | nil => simp [collapseWS, hd]
  | cons e cs' => simp [collapseWS, hd]

theorem chain_collapseWS (t : List Char) : List.Chain' noTwoWS (collapseWS t) := by
  induction t with
  | nil => exact List.chain'_nil
  | cons c cs ih =>
    cases cs with
    | nil =>
      simp only [collapseWS]
      split
      · exact List.chain'_singleton _
      · exact List.chain'_singleton _
    | cons d cs' =>
      simp only [collapseWS]
      split
      · split
        · exact ih
        · rename_i hc hd
          rw [collapseWS_cons_of_not_space (Bool.of_not_eq_true hd)] at ih ⊢
          exact List.chain'_cons'.mpr
            ⟨fun y hy => by
              rw [List.head?_cons, Option.mem_some_iff] at hy
              cases hy
              exact Or.inr (Bool.of_not_eq_true hd),
            ih⟩
      · rename_i hc
        exact List.chain'_cons'.mpr
          ⟨fun y hy => Or.inl (Bool.of_not_eq_true hc), ih⟩

theorem collapseWS_eq_self {t : List Char} (hsp : ∀ x ∈ t, isPySpace x = true → x = ' ')
    (hch : List.Chain' noTwoWS t) : collapseWS t = t := by
  induction t with
  | nil => rfl
  | cons c cs ih =>
    cases cs with
    | nil =>
      simp only [collapseWS]
      split
      · rename_i hc
        rw [hsp c (List.mem_cons_self _ _) hc]
      · rfl
    | cons d cs' =>
      have hcd : noTwoWS c d := (List.chain'_cons.mp hch).1
      have hch' : List.Chain' noTwoWS (d :: cs') := (List.chain'_cons.mp hch).2
      have hsp' : ∀ x ∈ d :: cs', isPySpace x = true → x = ' ' :=
        fun x hx => hsp x (List.mem_cons_of_mem c hx)
      simp only [collapseWS]
      split
      · rename_i hc
        have hd : isPySpace d = false := by
          rcases hcd with h' | h'
          · rw [hc] at h'; exact absurd h' (by simp)
          · exact h'
        rw [if_neg (by rw [hd]; simp), ih hsp' hch', hsp c (List.mem_cons_self _ _) hc]
      · rw [ih hsp' hch']

theorem head_dropWhile {p : Char → Bool} {t : List Char} {x : Char}
    (h : (t.dropWhile p).head? = some x) : p x = false := by
  induction t with
  | nil => exact absurd h (by simp)
  | cons c cs ih =>
    rw [List.dropWhile_cons] at h
    split at h
    · exact ih h
    · rw [List.head?_cons, Option.some_inj] at h
      subst h
      rename_i hc
      exact Bool.of_not_eq_true hc

theorem dropWhile_eq_self_of_head {p : Char → Bool} {t : List Char}
    (h : ∀ x, t.head? = some x → p x = false) : t.dropWhile p = t := by
  cases t with
  | nil => rfl
  | cons c cs =>
    rw [List.dropWhile_cons, if_neg]
    rw [h c rfl]
    simp

theorem getLast_dropWhile {p : Char → Bool} {t : List Char}
    (h : t.dropWhile p ≠ []) : (t.dropWhile p).getLast? = t.getLast? := by
  induction t with
  | nil => exact absurd rfl h
  | cons c cs ih =>
    rw [List.dropWhile_cons]
    split
    · rw [List.dropWhile_cons] at h
      rename_i hc
      rw [if_pos hc] at h
      have hcs : cs ≠ [] := by
        intro he
        rw [he] at h
        exact h rfl
      rw [ih h]
      cases cs with
      | nil => exact absurd rfl hcs
      | cons d cs' => rw [List.getLast?_cons_cons]
    · rfl

theorem mem_dropWhile {p : Char → Bool} {t : List Char} {x : Char}
    (h : x ∈ t.dropWhile p) : x ∈ t := by
  induction t with
  | nil => exact absurd h (List.not_mem_nil x)
  | cons c cs ih =>
    rw [List.dropWhile_cons] at h
    split at h
    · exact List.mem_cons_of_mem c (ih h)
    · exact h

theorem chain_dropWhile {R : Char → Char → Prop} {p : Char → Bool} {t : List Char}
    (h : List.Chain' R t) : List.Chain' R (t.dropWhile p) := by
  induction t with
  | nil => exact List.chain'_nil
  | cons c cs ih =>
    rw [List.dropWhile_cons]
    split
    · exact ih h.tail
    · exact h

theorem mem_stripChars {x : Char} {t : List Char} (h : x ∈ stripChars t) : x ∈ t := by
  unfold stripChars at h
  rw [List.mem_reverse] at h
  exact mem_dropWhile (List.mem_reverse.mp (mem_dropWhile h))

theorem stripChars_head {t : List Char} {x : Char}
    (h : (stripChars t).head? = some x) : isPySpace x = false := by
  unfold stripChars at h
  rw [List.head?_reverse] at h
  have hne : (t.dropWhile isPySpace).reverse.dropWhile isPySpace ≠ [] := by
    intro he
    rw [he] at h
    exact Option.noConfusion h
  rw [getLast_dropWhile hne, List.getLast?_reverse] at h
  exact head_dropWhile h

theorem stripChars_last {t : List Char} {x : Char}
    (h : (stripChars t).getLast? = some x) : isPySpace x = false := by
  unfold stripChars at h
  rw [List.getLast?_reverse] at h
  exact head_dropWhile h

theorem chain_stripChars {t : List Char} (h : List.Chain' noTwoWS t) :
    List.Chain' noTwoWS (stripChars t) := by
  have flipNW : ∀ {l : List Char}, List.Chain' noTwoWS l → List.Chain' (flip noTwoWS) l :=
    fun hl => hl.imp (fun _ _ hab => hab.symm)
  unfold stripChars
  exact List.chain'_reverse.mpr
    (flipNW (chain_dropWhile (List.chain'_reverse.mpr (flipNW (chain_dropWhile h)))))

theorem stripChars_eq_self {t : List Char}
    (h1 : ∀ x, t.head? = some x → isPySpace x = false)
    (h2 : ∀ x, t.getLast? = some x → isPySpace x = false) : stripChars t = t := by
  unfold stripChars
  rw [dropWhile_eq_self_of_head h1]
  rw [dropWhile_eq_self_of_head (fun x hx => h2 x (by rw [← List.head?_reverse]; exact hx))]
  exact List.reverse_reverse t

/-! ## Normal form of cleaned text

The pipeline definitions are sealed inside this section: reasoning proceeds
through the equation lemmas below, never by definitional unfolding of the
composite (which is expensive for the elaborator). -/

theorem clean_text_def (t : List Char) : clean_text t =
    if t.isEmpty then [] else normalize_whitespace (remove_artifacts (fix_ligatures t)) := rfl

theorem normalize_whitespace_def (t : List Char) :
    normalize_whitespace t = stripChars (collapseWS (hyphenAux false t)) := rfl

theorem clean_text_nil : clean_text [] = [] := rfl

theorem normalize_whitespace_nil : normalize_whitespace [] = [] := rfl

section SealedPipeline

attribute [local irreducible] clean_text normalize_whitespace remove_artifacts fix_ligatures
  stripChars collapseWS hyphenAux splitLines joinLines replaceChar keepLine

theorem clean_text_normal (t : List Char) :
    (∀ x ∈ clean_text t, isLig x = false) ∧
    (∀ x ∈ clean_text t, isPySpace x = true → x = ' ') ∧
    List.Chain' noTwoWS (clean_text t) ∧
    (∀ x, (clean_text t).head? = some x → isPySpace x = false) ∧
    (∀ x, (clean_text t).getLast? = some x → isPySpace x = false) := by
  rw [clean_text_def]
  split
  · refine ⟨fun x hx => absurd hx (List.not_mem_nil x),
      fun x hx => absurd hx (List.not_mem_nil x), List.chain'_nil,
      fun x hx => Option.noConfusion hx, fun x hx => Option.noConfusion hx⟩
  · rw [normalize_whitespace_def]
    have hch : List.Chain' noTwoWS
        (collapseWS (hyphenAux false (remove_artifacts (fix_ligatures t)))) :=
      chain_collapseWS _
    refine ⟨?_, ?_, chain_stripChars hch,
      fun x hx => stripChars_head hx, fun x hx => stripChars_last hx⟩
    · intro x hx
      rcases mem_collapseWS (mem_stripChars hx) with rfl | hx2
      · rfl
      · rcases mem_remove_artifacts (mem_hyphenAux hx2) with rfl | hx3
        · rfl
        · exact isLig_false_of_mem_fix_ligatures hx3
    · intro x hx
      exact collapseWS_space (mem_stripChars hx)

theorem newline_not_mem_clean_text (t : List Char) : '\n' ∉ clean_text t := by
  intro hm
  have := (clean_text_normal t).2.1 '\n' hm rfl
  exact absurd this (by decide)

theorem clean_clean (t : List Char) :
    clean_text (clean_text t) = [] ∨ clean_text (clean_text t) = clean_text t := by
  obtain ⟨hlig, hsp, hch, hhd, hlast⟩ := clean_text_normal t
  by_cases hy : (clean_text t).isEmpty
  · left
    rw [clean_text_def (clean_text t), if_pos hy]
  · rcases remove_artifacts_of_no_newline (newline_not_mem_clean_text t) with he | he
    · right
      rw [clean_text_def (clean_text t), if_neg hy, fix_ligatures_eq_self hlig, he,
        normalize_whitespace_def, hyphenAux_of_no_newline (newline_not_mem_clean_text t),
        collapseWS_eq_self hsp hch, stripChars_eq_self hhd hlast]
    · left
      rw [clean_text_def (clean_text t), if_neg hy, fix_ligatures_eq_self hlig, he,
        normalize_whitespace_nil]

end SealedPipeline

/-! ## Helper lemmas: the page loop and the file hash -/

theorem parsePagesAux_mem {dg : List Char → List Char} {fn fp fh : List Char}
    {pages : List (List Char)} {i : Nat} {d : Document}
    (h : d ∈ parsePagesAux dg fn fp fh i pages) :
    ∃ k, ∃ hk : k < pages.length, (clean_text pages[k]).isEmpty = false ∧
      d = mkDoc dg fn fp fh (i + k) (clean_text pages[k]) := by
  induction pages generalizing i with
  | nil => exact absurd h (List.not_mem_nil d)
  | cons raw rest ih =>
    rw [parsePagesAux] at h
    split at h
    · obtain ⟨k, hk, hne, hd⟩ := ih h
      refine ⟨k + 1, Nat.succ_lt_succ hk, ?_, ?_⟩
      · simpa using hne
      · rw [show i + (k + 1) = (i + 1) + k from by omega]
        simpa using hd
    · rcases List.mem_cons.mp h with rfl | h'
      · rename_i hcond
        refine ⟨0, Nat.succ_pos _, ?_, ?_⟩
        · simpa using Bool.of_not_eq_true hcond
        · simp
      · obtain ⟨k, hk, hne, hd⟩ := ih h'
        refine ⟨k + 1, Nat.succ_lt_succ hk, ?_, ?_⟩
        · simpa using hne
        · rw [show i + (k + 1) = (i + 1) + k from by omega]
          simpa using hd

theorem mkDoc_mem_parsePagesAux {dg : List Char → List Char} {fn fp fh : List Char}
    (i : Nat) {pages : List (List Char)} (k : Nat) (hk : k < pages.length)
    (hne : (clean_text pages[k]).isEmpty = false) :
    mkDoc dg fn fp fh (i + k) (clean_text pages[k]) ∈ parsePagesAux dg fn fp fh i pages := by
  induction pages generalizing i k with
  | nil => exact absurd hk (Nat.not_lt_zero k)
  | cons raw rest ih =>
    cases k with
    | zero =>
      rw [parsePagesAux]
      simp only [List.getElem_cons_zero] at hne ⊢
      rw [if_neg (by rw [hne]; simp), Nat.add_zero]
      exact List.mem_cons_self _ _
    | succ k' =>
      rw [parsePagesAux]
      simp only [List.getElem_cons_succ] at hne ⊢
      have hmem := ih (i + 1) k' (Nat.lt_of_succ_lt_succ hk) hne
      rw [show i + (k' + 1) = (i + 1) + k' from by omega]
      split
      · exact hmem
      · exact List.mem_cons_of_mem _ hmem

theorem parsePagesAux_map_id (dg : List Char → List Char) (fn1 fp1 fn2 fp2 fh : List Char)
    (i : Nat) (pages : List (List Char)) :
    (parsePagesAux dg fn1 fp1 fh i pages).map (fun d => d.metadata.id) =
      (parsePagesAux dg fn2 fp2 fh i pages).map (fun d => d.metadata.id) := by
  induction pages generalizing i with
  | nil => rfl
  | cons raw rest ih =>
    rw [parsePagesAux, parsePagesAux]
    by_cases hc : (clean_text raw).isEmpty
    · rw [if_pos hc, if_pos hc]
      exact ih (i + 1)
    · rw [if_neg hc, if_neg hc]
      simp only [List.map_cons]
      rw [ih (i + 1)]
      rfl

theorem chunkBytes_flatten (l : List Nat) : (chunkBytes l).flatten = l := by
  induction l using chunkBytes.induct with
  | case1 => rw [chunkBytes]; simp
  | case2 x hx ih =>
    rw [chunkBytes, if_neg hx]
    rw [List.flatten_cons, ih]
    exact List.take_append_drop 4096 x

theorem pathSuffix_append_txt (pre : List Char) :
    pathSuffix (pre ++ S ".txt") = if pre = [] then [] else S ".txt" := by
  unfold pathSuffix
  rw [List.reverse_append, show (S ".txt").reverse = 't' :: 'x' :: 't' :: '.' :: [] from rfl]
  cases pre with
  | nil => decide
  | cons a pre' =>
    rw [if_neg (List.cons_ne_nil a pre')]
    simp only [List.cons_append, List.nil_append]
    rw [show List.takeWhile notDot ('t' :: 'x' :: 't' :: '.' :: (a :: pre').reverse)
        = ['t', 'x', 't'] from rfl]
    rw [show (['t', 'x', 't'] : List Char).length = 3 from rfl]
    have hcond : 1 ≤ (3 : Nat) ∧ 3 + 1 < ('t' :: 'x' :: 't' :: '.' :: (a :: pre').reverse).length := by
      refine ⟨by omega, ?_⟩
      simp only [List.length_cons, List.length_reverse]
      omega
    rw [if_pos hcond]
    rw [show ('t' :: 'x' :: 't' :: '.' :: (a :: pre').reverse).take (3 + 1)
        = ['t', 'x', 't', '.'] from rfl]
    rfl

/-! ## Claim theorems -/

/-- Claim C1: every Document yielded by `PDFParser.parse` for the page with
    0-based index `i` carries `id = digest(file_hash + "_" + str(i))` (the
    digest of the file hash, an underscore, and the decimal index) and the
    1-based `page_number = i + 1`; its content is the cleaned text of that
    page and its `file_hash` field is the file's hash. -/
theorem C1_page_id_and_number (dg : List Char → List Char) (fn fp fh : List Char)
    (pages : List (List Char)) :
    ∀ d ∈ parsePages dg fn fp fh pages, ∃ i, ∃ hi : i < pages.length,
      d.content = clean_text pages[i] ∧
      d.metadata.file_hash = fh ∧
      d.metadata.id = dg (fh ++ '_' :: Nat.toDigits 10 i) ∧
      d.metadata.page_number = i + 1 := by
  intro d hd
  obtain ⟨k, hk, hne, rfl⟩ := parsePagesAux_mem hd
  refine ⟨k, hk, by simp [mkDoc], by simp [mkDoc], by simp [mkDoc], by simp [mkDoc]⟩

/-- Witness for C1 at a one-page file whose page text is `"a"`, with the
    identity function as digest. -/
theorem C1_page_id_and_number_witness :
    ∃ i, ∃ hi : i < [S "a"].length,
      (mkDoc (fun s => s) [] [] (S "h") 0 (clean_text (S "a"))).content = clean_text [S "a"][i] ∧
      (mkDoc (fun s => s) [] [] (S "h") 0 (clean_text (S "a"))).metadata.file_hash = S "h" ∧
      (mkDoc (fun s => s) [] [] (S "h") 0 (clean_text (S "a"))).metadata.id =
        (fun s => s) (S "h" ++ '_' :: Nat.toDigits 10 i) ∧
      (mkDoc (fun s => s) [] [] (S "h") 0 (clean_text (S "a"))).metadata.page_number = i + 1 :=
  C1_page_id_and_number (fun s => s) [] [] (S "h") [S "a"]
    (mkDoc (fun s => s) [] [] (S "h") 0 (clean_text (S "a"))) (by decide)

/-- Counterexample to claim C2 as stated: cleaning is not idempotent.  The
    first pass turns `"Page 2\nof 10"` into the single line `"Page 2 of 10"`,
    which the second pass drops as a page-footer artifact. -/
theorem C2_idempotence_counterexample :
    clean_text (clean_text (S "Page 2\nof 10")) ≠ clean_text (S "Page 2\nof 10") := by
  decide

/-- Claim C2 as amended: a second application of `clean_text` is a fixed
    point, i.e. `clean(clean(clean x)) = clean(clean x)` for every `x`;
    one pass need not reach the fixed point. -/
theorem C2_idempotent_after_second_pass (x : List Char) :
    clean_text (clean_text (clean_text x)) = clean_text (clean_text x) := by
  rcases clean_clean x with h | h
  · rw [h, clean_text_nil]
  · rw [h]
    exact h

/-- Claim C3 evaluated at the failing input: for a one-page PDF whose page
    cleans to non-empty text, a consumer that pulls one Document and then
    abandons iteration has executed the open event but never the close event:
    the `doc.close()` after the loop is unreachable on early abandonment
    because the generator body has no `try/finally`. -/
theorem C3_handle_left_open_on_abandon :
    PEvent.opened ∈ execAfterPulls [S "a"] 1 ∧
    PEvent.closed ∉ execAfterPulls [S "a"] 1 := by
  decide

/-- Claim C4: pages whose text cleans to empty contribute no Document (no
    output Document carries their 1-based number), every emitted Document has
    non-empty content, and every other page appears with `page_number` equal
    to its own 0-based index plus one (no renumbering). -/
theorem C4_empty_page_elision (dg : List Char → List Char) (fn fp fh : List Char)
    (pages : List (List Char)) :
    (∀ d ∈ parsePages dg fn fp fh pages, d.content ≠ []) ∧
    (∀ i, ∀ hi : i < pages.length,
      ((clean_text pages[i]).isEmpty = true →
        ∀ d ∈ parsePages dg fn fp fh pages, d.metadata.page_number ≠ i + 1) ∧
      ((clean_text pages[i]).isEmpty = false →
        mkDoc dg fn fp fh i (clean_text pages[i]) ∈ parsePages dg fn fp fh pages)) := by
  constructor
  · intro d hd
    obtain ⟨k, hk, hne, rfl⟩ := parsePagesAux_mem hd
    exact List.isEmpty_eq_false.mp hne
  · intro i hi
    constructor
    · intro hemp d hd hpn
      obtain ⟨k, hk, hne, rfl⟩ := parsePagesAux_mem hd
      have hpn' : (0 + k) + 1 = i + 1 := hpn
      have hki : k = i := by omega
      subst hki
      exact absurd (hne.symm.trans hemp) Bool.false_ne_true
    · intro hne
      have h := @mkDoc_mem_parsePagesAux dg fn fp fh 0 pages i hi hne
      rw [Nat.zero_add] at h
      exact h

/-- Witness for C4 at a two-page file whose first page cleans to empty: the
    second page's Document keeps `page_number = 2`, and no Document carries
    the dropped page's number `1`. -/
theorem C4_empty_page_elision_witness :
    mkDoc (fun s => s) [] [] (S "h") 1 (clean_text (S "a")) ∈
      parsePages (fun s => s) [] [] (S "h") [S "", S "a"] ∧
    (mkDoc (fun s => s) [] [] (S "h") 1 (clean_text (S "a"))).metadata.page_number ≠ 0 + 1 :=
  ⟨((C4_empty_page_elision (fun s => s) [] [] (S "h") [S "", S "a"]).2 1 (by decide)).2 (by decide),
   ((C4_empty_page_elision (fun s => s) [] [] (S "h") [S "", S "a"]).2 0 (by decide)).1 (by decide)
     (mkDoc (fun s => s) [] [] (S "h") 1 (clean_text (S "a")))
     (((C4_empty_page_elision (fun s => s) [] [] (S "h") [S "", S "a"]).2 1 (by decide)).2
       (by decide))⟩

/-- Counterexample to claim C5 as stated: for a path that does not exist,
    extracting a `.txt` path raises NotFound, not UnsupportedFormat (the
    existence check runs first). -/
theorem C5_counterexample :
    checkPath false (S "doc.txt") = some ParseError.notFound ∧
    checkPath false (S "doc.txt") ≠ some ParseError.unsupportedFormat := by
  decide

/-- Claim C5 as amended: extracting an existing path ending in `.txt` raises
    UnsupportedFormat, extracting a nonexistent path raises NotFound, and in
    both cases no event (in particular no open) is executed: the error is
    raised before any file or document handle is opened. -/
theorem C5_error_order (name : List Char) (pages : List (List Char)) (k : Nat) :
    ((∃ pre, name = pre ++ S ".txt") →
      checkPath true name = some ParseError.unsupportedFormat ∧
      parseEvents true name pages k = []) ∧
    (checkPath false name = some ParseError.notFound ∧
      parseEvents false name pages k = []) := by
  constructor
  · rintro ⟨pre, rfl⟩
    have hs : (pathSuffix (pre ++ S ".txt")).map Char.toLower ≠ S ".pdf" := by
      rw [pathSuffix_append_txt]
      split
      · decide
      · decide
    have hc : checkPath true (pre ++ S ".txt") = some ParseError.unsupportedFormat := by
      unfold checkPath
      rw [if_neg (by simp), if_pos hs]
    exact ⟨hc, by simp [parseEvents, hc]⟩
  · have hc : checkPath false name = some ParseError.notFound := by
      unfold checkPath
      rw [if_pos rfl]
    exact ⟨hc, by simp [parseEvents, hc]⟩

/-- Witness for C5 at the name `"doc.txt"`. -/
theorem C5_error_order_witness :
    (checkPath true (S "doc" ++ S ".txt") = some ParseError.unsupportedFormat ∧
      parseEvents true (S "doc" ++ S ".txt") [] 0 = []) ∧
    (checkPath false (S "doc" ++ S ".txt") = some ParseError.notFound ∧
      parseEvents false (S "doc" ++ S ".txt") [] 0 = []) :=
  ⟨(C5_error_order (S "doc" ++ S ".txt") [] 0).1 ⟨S "doc", rfl⟩,
   (C5_error_order (S "doc" ++ S ".txt") [] 0).2⟩

/-- Claim C6: the file hash is the digest of the file's content bytes alone
    (the chunked incremental read hashes exactly the concatenation of the
    chunks), so byte-identical files get identical hashes regardless of name
    or path, and the per-page ids of two byte-identical files coincide
    page for page. -/
theorem C6_content_addressed_identity (dB : List Nat → List Char)
    (dS : List Char → List Char) (f1 f2 : FileModel) (pages : List (List Char))
    (h : f1.bytes = f2.bytes) :
    calculate_file_hash dB f1 = dB f1.bytes ∧
    calculate_file_hash dB f1 = calculate_file_hash dB f2 ∧
    (parsePages dS f1.name f1.path (calculate_file_hash dB f1) pages).map
        (fun d => d.metadata.id) =
      (parsePages dS f2.name f2.path (calculate_file_hash dB f2) pages).map
        (fun d => d.metadata.id) := by
  have he : calculate_file_hash dB f1 = calculate_file_hash dB f2 := by
    unfold calculate_file_hash
    rw [h]
  refine ⟨by unfold calculate_file_hash; rw [chunkBytes_flatten], he, ?_⟩
  rw [he]
  exact parsePagesAux_map_id dS f1.name f1.path f2.name f2.path
    (calculate_file_hash dB f2) 0 pages

/-- Witness for C6: two files with different names and paths but identical
    bytes `[1, 2, 3]`. -/
theorem C6_content_addressed_identity_witness :
    calculate_file_hash (fun _ => S "d") ⟨S "a", S "/x/a", [1, 2, 3]⟩ =
      (fun _ => S "d") ([1, 2, 3] : List Nat) ∧
    calculate_file_hash (fun _ => S "d") ⟨S "a", S "/x/a", [1, 2, 3]⟩ =
      calculate_file_hash (fun _ => S "d") ⟨S "b", S "/y/b", [1, 2, 3]⟩ ∧
    (parsePages (fun s => s) (S "a") (S "/x/a")
        (calculate_file_hash (fun _ => S "d") ⟨S "a", S "/x/a", [1, 2, 3]⟩) [S "p"]).map
        (fun d => d.metadata.id) =
      (parsePages (fun s => s) (S "b") (S "/y/b")
        (calculate_file_hash (fun _ => S "d") ⟨S "b", S "/y/b", [1, 2, 3]⟩) [S "p"]).map
        (fun d => d.metadata.id) :=
  C6_content_addressed_identity (fun _ => S "d") (fun s => s)
    ⟨S "a", S "/x/a", [1, 2, 3]⟩ ⟨S "b", S "/y/b", [1, 2, 3]⟩ [S "p"] rfl

/-- Claim C7: cleaning `"communi-\ncation"` yields exactly `"communication"`:
    the hyphen-newline pair and the following whitespace are collapsed to
    nothing. -/
theorem C7_hyphenation_repair :
    clean_text (S "communi-\ncation") = S "communication" := by
  decide

/-- Claim C8: cleaning `"Intro\n5\nPage 2 of 10\nBody"` keeps `"Intro"` and
    `"Body"` but drops the standalone page number `"5"` and the
    `"Page 2 of 10"` footer line entirely. -/
theorem C8_artifact_elision :
    containsSub (S "Intro") (clean_text (S "Intro\n5\nPage 2 of 10\nBody")) = true ∧
    containsSub (S "Body") (clean_text (S "Intro\n5\nPage 2 of 10\nBody")) = true ∧
    containsSub (S "5") (clean_text (S "Intro\n5\nPage 2 of 10\nBody")) = false ∧
    containsSub (S "Page 2 of 10") (clean_text (S "Intro\n5\nPage 2 of 10\nBody")) = false := by
  decide

/-- Claim C9: for a nonexistent path the NotFound error is raised whatever
    the extension, and the UnsupportedFormat error can only arise for a path
    that exists: the existence check precedes the extension check. -/
theorem C9_existence_before_extension (name : List Char) (existsB : Bool) :
    (existsB = false → checkPath existsB name = some ParseError.notFound) ∧
    (checkPath existsB name = some ParseError.unsupportedFormat → existsB = true) := by
  constructor
  · intro h
    subst h
    unfold checkPath
    rw [if_pos rfl]
  · intro h
    cases existsB
    · rw [show checkPath false name = some ParseError.notFound from by
        unfold checkPath; rw [if_pos rfl]] at h
      exact absurd (Option.some.inj h) (by decide)
    · rfl

/-- Witness for C9 at the name `"a.txt"`. -/
theorem C9_existence_before_extension_witness :
    checkPath false (S "a.txt") = some ParseError.notFound ∧ true = true :=
  ⟨(C9_existence_before_extension (S "a.txt") false).1 rfl,
   (C9_existence_before_extension (S "a.txt") true).2 (by decide)⟩

/-- Claim C10: for every input, the cleaned output contains no newline, has
    no two consecutive whitespace characters, and neither starts nor ends
    with whitespace. -/
theorem C10_whitespace_normal_form (s : List Char) :
    '\n' ∉ clean_text s ∧
    List.Chain' noTwoWS (clean_text s) ∧
    (∀ c, (clean_text s).head? = some c → isPySpace c = false) ∧
    (∀ c, (clean_text s).getLast? = some c → isPySpace c = false) :=
  ⟨newline_not_mem_clean_text s, (clean_text_normal s).2.2.1,
   (clean_text_normal s).2.2.2.1, (clean_text_normal s).2.2.2.2⟩

/-- Witness for C10 at the input `"a b"`. -/
theorem C10_whitespace_normal_form_witness :
    isPySpace 'a' = false ∧ isPySpace 'b' = false :=
  ⟨(C10_whitespace_normal_form (S "a b")).2.2.1 'a' (by decide),
   (C10_whitespace_normal_form (S "a b")).2.2.2 'b' (by decide)⟩
